import Mathlib

/-!
Verification of the systemd cpuset controller
(`crates/libcgroups/src/systemd/cpuset.rs`).

The development embeds, as executable Lean functions:
  * the `to_bitmask` range-specification encoder, including a faithful model
    of the `fixedbitset` 0.4 `FixedBitSet` container it uses (32-bit blocks,
    `set` and `set_range` abort on out-of-range indices, `as_slice` exposes
    the blocks low-block first, each block serialized via `to_be_bytes`);
  * the `CpuSet::apply` controller that version-gates and writes the encoded
    masks into a property map.

Rust panics (aborts) are modelled by a distinguished `panic` result, kept
separate from the `Result::Err` outcomes (`parseError` for a failed integer
parse, `rangeError` for the `invalid cpu range` bail).
-/

namespace CpusetSpec

/-- Rust `char::is_whitespace` restricted to the ASCII whitespace characters
(the only ones the inputs under study contain). -/
def isWS (c : Char) : Bool :=
  c == ' ' || c == '\t' || c == '\n' || c == '\r' ||
  c == Char.ofNat 11 || c == Char.ofNat 12

/-- ASCII decimal digit test, as used by Rust integer parsing. -/
def isDigitC (c : Char) : Bool :=
  48 ≤ c.toNat && c.toNat ≤ 57

/-- Rust `str::trim` on a character list: drop whitespace from both ends. -/
def trimL (l : List Char) : List Char :=
  ((l.dropWhile isWS).reverse.dropWhile isWS).reverse

/-- Rust `str::split(sep)`: split at every occurrence of `sep`; always
returns at least one (possibly empty) piece. -/
def splitOnC (sep : Char) : List Char → List (List Char)
  | [] => [[]]
  | c :: rest =>
    if c = sep then [] :: splitOnC sep rest
    else
      match splitOnC sep rest with
      | [] => [[c]]
      | t :: ts => (c :: t) :: ts

/-- Rust `str::split_terminator(sep)`: like `split`, but a final empty piece
(arising from a trailing separator or an empty input) is omitted. -/
def splitTerm (sep : Char) (l : List Char) : List (List Char) :=
  let p := splitOnC sep l
  if p.getLast? = some [] then p.dropLast else p

/-- Accumulator loop of Rust's unsigned integer parsing over a digit string:
fails on the first non-digit character. -/
def parseDigitsAux (acc : Nat) : List Char → Option Nat
  | [] => some acc
  | c :: rest =>
    if isDigitC c then parseDigitsAux (acc * 10 + (c.toNat - 48)) rest
    else none

/-- Digit-string parsing: the empty string is rejected. -/
def parseDigits : List Char → Option Nat
  | [] => none
  | c :: rest => parseDigitsAux 0 (c :: rest)

/-- Remove one optional leading `+` sign, as Rust unsigned parsing allows. -/
def stripPlus : List Char → List Char
  | [] => []
  | c :: rest => if c = '+' then rest else c :: rest

/-- Rust `str::parse::<usize>()`: an optional leading `+` sign, then a
non-empty digit string; fails when the value overflows 64-bit `usize`. -/
def parseUsize (l : List Char) : Option Nat :=
  match parseDigits (stripPlus l) with
  | some n => if n < 2 ^ 64 then some n else none
  | none => none

/-- Model of `fixedbitset::FixedBitSet`: a bit array addressed from bit 0.
All slack storage beyond `bits.length` is zero in the real container, so the
bit list is the whole state. -/
structure FixedBitSet where
  bits : List Bool
  deriving Repr, DecidableEq

/-- `FixedBitSet::with_capacity(n)`: `n` bits, all clear. -/
def FixedBitSet.with_capacity (n : Nat) : FixedBitSet :=
  ⟨List.replicate n false⟩

/-- `FixedBitSet::len`: the number of bits. -/
def FixedBitSet.len (b : FixedBitSet) : Nat := b.bits.length

/-- `FixedBitSet::grow(n)`: extend with zero bits to at least `n` bits;
a no-op when already at least that long. -/
def FixedBitSet.grow (b : FixedBitSet) (n : Nat) : FixedBitSet :=
  ⟨b.bits ++ List.replicate (n - b.bits.length) false⟩

/-- `FixedBitSet::set(i, true)`: `none` models the Rust panic on an
out-of-bounds index. -/
def FixedBitSet.set (b : FixedBitSet) (i : Nat) : Option FixedBitSet :=
  if i < b.bits.length then some ⟨b.bits.set i true⟩ else none

/-- Helper for `set_range`: set every position `p` with `start ≤ i + p_abs`
... concretely, walking the list with absolute index `i`, set the positions in
`[start, stop)`. -/
def setRangeAux (start stop : Nat) : Nat → List Bool → List Bool
  | _, [] => []
  | i, v :: rest =>
    (if start ≤ i ∧ i < stop then true else v) :: setRangeAux start stop (i + 1) rest

/-- `FixedBitSet::set_range(start..stop, true)`: `none` models the Rust
panic when the range end exceeds the length. -/
def FixedBitSet.set_range (b : FixedBitSet) (start stop : Nat) : Option FixedBitSet :=
  if stop ≤ b.bits.length then some ⟨setRangeAux start stop 0 b.bits⟩ else none

/-- Value of a bit list read little-endian: head is bit 0. -/
def bitsVal : List Bool → Nat
  | [] => 0
  | b :: rest => (if b then 1 else 0) + 2 * bitsVal rest

/-- Accumulate the bit stream into 32-bit blocks: `pos` is the position of
the next bit inside the current block (`0 ≤ pos < 32`) and `acc` the value
of the bits of the current block seen so far. A final partial block is
emitted with its missing high bits zero, exactly as the container's slack
storage is zero. -/
def blocksAux (pos acc : Nat) : List Bool → List Nat
  | [] => if pos = 0 then [] else [acc]
  | v :: rest =>
    if pos = 31 then (acc + if v then 2 ^ pos else 0) :: blocksAux 0 0 rest
    else blocksAux (pos + 1) (acc + if v then 2 ^ pos else 0) rest

/-- `FixedBitSet::as_slice`: the 32-bit blocks, lowest block first; block `j`
holds bits `32*j .. 32*j+31`, bit `32*j+p` weighing `2^p` inside block `j`. -/
def toBlocks (l : List Bool) : List Nat :=
  blocksAux 0 0 l

/-- `u32::to_be_bytes`: the four bytes of a block, most significant first. -/
def beBytes (n : Nat) : List Nat :=
  [n / 2 ^ 24 % 256, n / 2 ^ 16 % 256, n / 2 ^ 8 % 256, n % 256]

/-- The final serialization of `to_bitmask`: blocks low-block first, each as
big-endian bytes, with leading zero bytes skipped. -/
def serialize (b : FixedBitSet) : List Nat :=
  (((toBlocks b.bits).map beBytes).flatten).dropWhile (fun x => x == 0)

/-- Outcome of `to_bitmask`: `ok` and the two `Result::Err` shapes, plus
`panic` for an abort inside `FixedBitSet`. -/
inductive BitmaskResult
  | ok (bytes : List Nat)
  | parseError
  | rangeError
  | panic
  deriving Repr, DecidableEq

/-- Is the result one of the `Result::Err` outcomes the spec calls a
`ParseError` (failed integer parse, or `invalid cpu range`)? -/
def BitmaskResult.isParseError : BitmaskResult → Bool
  | .parseError => true
  | .rangeError => true
  | _ => false

/-- Per-token bitset update outcome. -/
inductive StepRes
  | ok (bs : FixedBitSet)
  | parseError
  | rangeError
  | panic
  deriving Repr, DecidableEq

/-- The single-index branch of `to_bitmask`: grow by 8 bits when the index is
out of range, then set the bit. -/
def singleStep (bs : FixedBitSet) (i : Nat) : StepRes :=
  let bs2 := if bs.len ≤ i then bs.grow (bs.len + 8) else bs
  match bs2.set i with
  | some bs3 => .ok bs3
  | none => .panic

/-- The range branch of `to_bitmask`: bail when `start > end`, grow to
`end + 1` bits when needed, then set `start..=end`. -/
def rangeStep (bs : FixedBitSet) (s e : Nat) : StepRes :=
  if e < s then .rangeError
  else
    let bs2 := if bs.len ≤ e then bs.grow (e + 1) else bs
    match bs2.set_range s (e + 1) with
    | some bs3 => .ok bs3
    | none => .panic

/-- One iteration of the `to_bitmask` loop body on a raw comma-separated
token: trim, skip if empty, split on `-`, then the single or range branch. -/
def processToken (bs : FixedBitSet) (tok0 : List Char) : StepRes :=
  let tok := trimL tok0
  if tok = [] then .ok bs
  else
    match (splitOnC '-' tok).map trimL with
    | [c0] =>
      match parseUsize c0 with
      | some i => singleStep bs i
      | none => .parseError
    | c0 :: c1 :: _ =>
      match parseUsize c0, parseUsize c1 with
      | some s, some e => rangeStep bs s e
      | none, _ => .parseError
      | some _, none => .parseError
    | [] => .panic

/-- The `to_bitmask` token loop, ending with the serialization. -/
def bitmaskGo (bs : FixedBitSet) : List (List Char) → BitmaskResult
  | [] => .ok (serialize bs)
  | t :: ts =>
    match processToken bs t with
    | .ok bs2 => bitmaskGo bs2 ts
    | .parseError => .parseError
    | .rangeError => .rangeError
    | .panic => .panic

/-- `to_bitmask` on a character list: start from an 8-bit container and fold
the comma-separated tokens. -/
def to_bitmaskL (l : List Char) : BitmaskResult :=
  bitmaskGo (FixedBitSet.with_capacity 8) (splitTerm ',' l)

/-- `to_bitmask(range: &str) -> Result<Vec<u8>>`. -/
def to_bitmask (s : String) : BitmaskResult :=
  to_bitmaskL s.data

/-- Big-endian unsigned integer value of a byte sequence. -/
def beVal (l : List Nat) : Nat :=
  l.foldl (fun acc b => acc * 256 + b) 0

/-- Number of set bits of a natural number, with an explicit fuel so the
recursion is structural; `fuel = n` always suffices. -/
def popCountAux : Nat → Nat → Nat
  | 0, _ => 0
  | fuel + 1, n => if n = 0 then 0 else n % 2 + popCountAux fuel (n / 2)

/-- Number of set bits of a natural number. -/
def popCount (n : Nat) : Nat :=
  popCountAux n n

/-- Total number of set bits in a byte sequence. -/
def onesTotal (l : List Nat) : Nat :=
  (l.map popCount).sum

/-- The two optional string fields of `oci_spec::runtime::LinuxCpu` this
controller reads. -/
structure LinuxCpu where
  cpus : Option String
  mems : Option String

/-- The dbus property key for the CPU mask. -/
def ALLOWED_CPUS : String := "AllowedCPUs"

/-- The dbus property key for the memory-node mask. -/
def ALLOWED_NODES : String := "AllowedMemoryNodes"

/-- The caller-owned `HashMap<&str, Box<dyn RefArg>>`, with the mask bytes as
the stored values. -/
abbrev PropertyMap := List (String × List Nat)

/-- `HashMap::insert`: the new binding replaces any previous one. -/
def insertProp (k : String) (v : List Nat) (m : PropertyMap) : PropertyMap :=
  (k, v) :: m.filter (fun p => !(p.1 == k))

/-- Outcome of `CpuSet::apply`: success, the version-gate error, an
encoding error propagated by `?`, or an abort inside `to_bitmask`. -/
inductive Outcome
  | success
  | versionError
  | encodingError
  | panicked
  deriving Repr, DecidableEq

/-- The memory-node half of `CpuSet::apply`. -/
def applyMems (mems : Option String) (properties : PropertyMap) :
    Outcome × PropertyMap :=
  match mems with
  | some m =>
    match to_bitmask m with
    | .ok mask => (.success, insertProp ALLOWED_NODES mask properties)
    | .panic => (.panicked, properties)
    | _ => (.encodingError, properties)
  | none => (.success, properties)

/-- `CpuSet::apply(cpu, systemd_version, properties)`: version gate first,
then the CPU list, then the memory-node list; the returned map is the final
state of the caller's mutable map. -/
def CpuSet_apply (cpu : LinuxCpu) (systemd_version : Nat)
    (properties : PropertyMap) : Outcome × PropertyMap :=
  if systemd_version ≤ 243 then (.versionError, properties)
  else
    match cpu.cpus with
    | some cpus =>
      match to_bitmask cpus with
      | .ok mask => applyMems cpu.mems (insertProp ALLOWED_CPUS mask properties)
      | .panic => (.panicked, properties)
      | _ => (.encodingError, properties)
    | none => applyMems cpu.mems properties

/-! ### Character-class facts -/

/-- A character a successful `parseUsize` run may contain: a sign or a digit.
Such a character is not whitespace, not a comma and not a dash. -/
lemma goodChar_props (c : Char) (h : c = '+' ∨ isDigitC c = true) :
    isWS c = false ∧ c ≠ ',' ∧ c ≠ '-' := by
  rcases h with h | h
  · subst h; exact ⟨by decide, by decide, by decide⟩
  · simp only [isDigitC, Bool.and_eq_true, decide_eq_true_eq] at h
    refine ⟨?_, ?_, ?_⟩
    · simp only [isWS, Bool.or_eq_false_iff, beq_eq_false_iff_ne, ne_eq]
      refine ⟨⟨⟨⟨⟨?_, ?_⟩, ?_⟩, ?_⟩, ?_⟩, ?_⟩ <;> rintro rfl <;> revert h <;> decide
    · rintro rfl; revert h; decide
    · rintro rfl; revert h; decide

/-! ### Splitting and trimming -/

lemma dropWhile_eq_self_of_all {p : Char → Bool} {l : List Char}
    (h : ∀ c ∈ l, p c = false) : l.dropWhile p = l := by
  cases l with
  | nil => rfl
  | cons c rest => simp [List.dropWhile_cons, h c (by simp)]

lemma trimL_eq_self {l : List Char} (h : ∀ c ∈ l, isWS c = false) :
    trimL l = l := by
  unfold trimL
  rw [dropWhile_eq_self_of_all h,
    dropWhile_eq_self_of_all (fun c hc => h c (List.mem_reverse.mp hc)),
    List.reverse_reverse]

lemma trimL_eq_nil {l : List Char} (h : ∀ c ∈ l, isWS c = true) :
    trimL l = [] := by
  have h1 : l.dropWhile isWS = [] := List.dropWhile_eq_nil_iff.mpr (by simpa using h)
  unfold trimL
  rw [h1]
  rfl

lemma splitOnC_no_sep {sep : Char} {l : List Char} (h : ∀ c ∈ l, c ≠ sep) :
    splitOnC sep l = [l] := by
  induction l with
  | nil => rfl
  | cons c rest ih =>
    have hc : ¬ c = sep := h c (by simp)
    have hr := ih (fun x hx => h x (by simp [hx]))
    simp [splitOnC, hc, hr]

lemma splitOnC_append {sep : Char} {l1 l2 : List Char}
    (h : ∀ c ∈ l1, c ≠ sep) :
    splitOnC sep (l1 ++ sep :: l2) = l1 :: splitOnC sep l2 := by
  induction l1 with
  | nil => simp [splitOnC]
  | cons c rest ih =>
    have hc : ¬ c = sep := h c (by simp)
    have hr := ih (fun x hx => h x (by simp [hx]))
    simp [splitOnC, hc, hr]

lemma splitTerm_no_sep {sep : Char} {l : List Char} (hne : l ≠ [])
    (h : ∀ c ∈ l, c ≠ sep) : splitTerm sep l = [l] := by
  unfold splitTerm
  rw [splitOnC_no_sep h]
  simp [hne]

/-! ### Parsing facts -/

lemma parseDigitsAux_digits {l : List Char} : ∀ {acc n : Nat},
    parseDigitsAux acc l = some n → ∀ c ∈ l, isDigitC c = true := by
  induction l with
  | nil => intro acc n _ c hc; simp at hc
  | cons c0 rest ih =>
    intro acc n h c hc
    unfold parseDigitsAux at h
    by_cases hd : isDigitC c0 = true
    · rw [if_pos hd] at h
      rcases List.mem_cons.mp hc with rfl | hmem
      · exact hd
      · exact ih h c hmem
    · rw [if_neg hd] at h
      exact absurd h (by simp)

lemma parseUsize_chars {l : List Char} {n : Nat} (h : parseUsize l = some n) :
    ∀ c ∈ l, c = '+' ∨ isDigitC c = true := by
  intro c hc
  unfold parseUsize at h
  cases hpd : parseDigits (stripPlus l) with
  | none => rw [hpd] at h; exact absurd h (by simp)
  | some m =>
    have hall : ∀ x ∈ stripPlus l, isDigitC x = true := by
      intro x hx
      cases hs : stripPlus l with
      | nil => rw [hs] at hx; simp at hx
      | cons d rest =>
        rw [hs] at hpd hx
        unfold parseDigits at hpd
        exact parseDigitsAux_digits hpd x hx
    cases l with
    | nil => simp at hc
    | cons c0 rest =>
      by_cases hp : c0 = '+'
      · subst hp
        rcases List.mem_cons.mp hc with rfl | hmem
        · exact Or.inl rfl
        · exact Or.inr (hall c (by simp [stripPlus, hmem]))
      · refine Or.inr (hall c ?_)
        simpa [stripPlus, hp] using hc

lemma parseUsize_ne_nil {l : List Char} {n : Nat}
    (h : parseUsize l = some n) : l ≠ [] := by
  rintro rfl
  simp [parseUsize, stripPlus, parseDigits] at h

/-! ### Reduction of `to_bitmask` on single-index and range inputs -/

/-- The result of `to_bitmask` on an input that is one single-index token
parsing to `i`. -/
def singleOutcome (i : Nat) : BitmaskResult :=
  match singleStep (FixedBitSet.with_capacity 8) i with
  | .ok bs2 => .ok (serialize bs2)
  | .parseError => .parseError
  | .rangeError => .rangeError
  | .panic => .panic

/-- The result of `to_bitmask` on an input that is one range token parsing
to bounds `a` and `b`. -/
def rangeOutcome (a b : Nat) : BitmaskResult :=
  match rangeStep (FixedBitSet.with_capacity 8) a b with
  | .ok bs2 => .ok (serialize bs2)
  | .parseError => .parseError
  | .rangeError => .rangeError
  | .panic => .panic

lemma processToken_single (bs : FixedBitSet) {s : List Char} {i : Nat}
    (h : parseUsize s = some i) : processToken bs s = singleStep bs i := by
  have hchars := parseUsize_chars h
  have hne := parseUsize_ne_nil h
  have hnws : ∀ c ∈ s, isWS c = false :=
    fun c hc => (goodChar_props c (hchars c hc)).1
  have hnd : ∀ c ∈ s, c ≠ '-' :=
    fun c hc => (goodChar_props c (hchars c hc)).2.2
  have htrim : trimL s = s := trimL_eq_self hnws
  have hsplit : splitOnC '-' s = [s] := splitOnC_no_sep hnd
  unfold processToken
  rw [htrim, if_neg hne, hsplit]
  simp [htrim, h]

lemma processToken_range (bs : FixedBitSet) {sa sb : List Char} {a b : Nat}
    (ha : parseUsize sa = some a) (hb : parseUsize sb = some b) :
    processToken bs (sa ++ '-' :: sb) = rangeStep bs a b := by
  have hca := parseUsize_chars ha
  have hcb := parseUsize_chars hb
  have hnws : ∀ c ∈ sa ++ '-' :: sb, isWS c = false := by
    intro c hc
    rcases List.mem_append.mp hc with hm | hm
    · exact (goodChar_props c (hca c hm)).1
    · rcases List.mem_cons.mp hm with rfl | hm2
      · decide
      · exact (goodChar_props c (hcb c hm2)).1
  have htrim : trimL (sa ++ '-' :: sb) = sa ++ '-' :: sb := trimL_eq_self hnws
  have hne : sa ++ '-' :: sb ≠ [] := by simp
  have hsplit : splitOnC '-' (sa ++ '-' :: sb) = sa :: splitOnC '-' sb :=
    splitOnC_append (fun c hc => (goodChar_props c (hca c hc)).2.2)
  have hsb : splitOnC '-' sb = [sb] :=
    splitOnC_no_sep (fun c hc => (goodChar_props c (hcb c hc)).2.2)
  have htra : trimL sa = sa :=
    trimL_eq_self (fun c hc => (goodChar_props c (hca c hc)).1)
  have htrb : trimL sb = sb :=
    trimL_eq_self (fun c hc => (goodChar_props c (hcb c hc)).1)
  unfold processToken
  rw [htrim, if_neg hne, hsplit, hsb]
  simp [htra, htrb, ha, hb]

lemma to_bitmaskL_single {s : List Char} {i : Nat}
    (h : parseUsize s = some i) : to_bitmaskL s = singleOutcome i := by
  have hchars := parseUsize_chars h
  have hne := parseUsize_ne_nil h
  have hterm : splitTerm ',' s = [s] :=
    splitTerm_no_sep hne (fun c hc => (goodChar_props c (hchars c hc)).2.1)
  unfold to_bitmaskL
  rw [hterm]
  cases hstep : singleStep (FixedBitSet.with_capacity 8) i <;>
    simp [bitmaskGo, processToken_single _ h, hstep, singleOutcome]

lemma to_bitmaskL_range {sa sb : List Char} {a b : Nat}
    (ha : parseUsize sa = some a) (hb : parseUsize sb = some b) :
    to_bitmaskL (sa ++ '-' :: sb) = rangeOutcome a b := by
  have hca := parseUsize_chars ha
  have hcb := parseUsize_chars hb
  have hnc : ∀ c ∈ sa ++ '-' :: sb, c ≠ ',' := by
    intro c hc
    rcases List.mem_append.mp hc with hm | hm
    · exact (goodChar_props c (hca c hm)).2.1
    · rcases List.mem_cons.mp hm with rfl | hm2
      · decide
      · exact (goodChar_props c (hcb c hm2)).2.1
  have hterm : splitTerm ',' (sa ++ '-' :: sb) = [sa ++ '-' :: sb] :=
    splitTerm_no_sep (by simp) hnc
  unfold to_bitmaskL
  rw [hterm]
  cases hstep : rangeStep (FixedBitSet.with_capacity 8) a b <;>
    simp [bitmaskGo, processToken_range _ ha hb, hstep, rangeOutcome]

/-! ### Values of single-index and range masks -/

/-- The bytes `to_bitmask` returns on a successful single-index token. -/
def singleBytes (i : Nat) : List Nat :=
  match singleStep (FixedBitSet.with_capacity 8) i with
  | .ok bs2 => serialize bs2
  | _ => []

/-- The bytes `to_bitmask` returns on a successful range token. -/
def rangeBytes (a b : Nat) : List Nat :=
  match rangeStep (FixedBitSet.with_capacity 8) a b with
  | .ok bs2 => serialize bs2
  | _ => []

set_option maxRecDepth 4000

lemma singleOutcome_val : ∀ i < 16, singleOutcome i = .ok (singleBytes i) ∧
    beVal (singleBytes i) = 2 ^ i ∧ onesTotal (singleBytes i) = 1 := by decide

lemma rangeOutcome_val : ∀ b < 32, ∀ a, a ≤ b →
    rangeOutcome a b = .ok (rangeBytes a b) ∧
    beVal (rangeBytes a b) = 2 ^ (b + 1) - 2 ^ a := by decide

lemma sum_two_pow_Icc {a b : Nat} (h : a ≤ b) :
    (Finset.Icc a b).sum (fun k => 2 ^ k) = 2 ^ (b + 1) - 2 ^ a := by
  induction b, h using Nat.le_induction with
  | base =>
    rw [Finset.Icc_self, Finset.sum_singleton]
    have h2 : (2 : Nat) ^ (a + 1) = 2 ^ a * 2 := pow_succ 2 a
    omega
  | succ b hab ih =>
    rw [Finset.sum_Icc_succ_top (by omega), ih]
    have h1 : (2 : Nat) ^ a ≤ 2 ^ (b + 1) :=
      Nat.pow_le_pow_right (by omega) (by omega)
    have h2 : (2 : Nat) ^ (b + 2) = 2 ^ (b + 1) * 2 := pow_succ 2 (b + 1)
    omega

/-! ### Serialization invariants -/

/-- Every successful run of the token loop returns the serialization of
some final bitset state. -/
lemma bitmaskGo_ok {ts : List (List Char)} : ∀ {bs : FixedBitSet}
    {bytes : List Nat}, bitmaskGo bs ts = .ok bytes →
    ∃ bs2, bytes = serialize bs2 := by
  induction ts with
  | nil =>
    intro bs bytes h
    simp only [bitmaskGo, BitmaskResult.ok.injEq] at h
    exact ⟨bs, h.symm⟩
  | cons t ts ih =>
    intro bs bytes h
    simp only [bitmaskGo] at h
    cases hp : processToken bs t <;> rw [hp] at h
    · exact ih h
    · exact absurd h (by simp)
    · exact absurd h (by simp)
    · exact absurd h (by simp)

lemma dropWhile_head_not {p : Nat → Bool} : ∀ {l : List Nat} {b : Nat},
    (l.dropWhile p).head? = some b → p b = false := by
  intro l
  induction l with
  | nil => intro b h; simp at h
  | cons c rest ih =>
    intro b h
    by_cases hc : p c = true
    · rw [List.dropWhile_cons, if_pos hc] at h
      exact ih h
    · rw [List.dropWhile_cons, if_neg hc] at h
      have hcb : c = b := by simpa using h
      subst hcb
      rw [Bool.not_eq_true] at hc
      exact hc

/-- The first byte of any serialized mask is non-zero. -/
lemma serialize_head_ne_zero {bs : FixedBitSet} {b : Nat}
    (h : (serialize bs).head? = some b) : b ≠ 0 := by
  unfold serialize at h
  have := dropWhile_head_not h
  simpa using this

lemma blocksAux_all_zero {l : List Bool} (h : ∀ v ∈ l, v = false) :
    ∀ pos, ∀ x ∈ blocksAux pos 0 l, x = 0 := by
  induction l with
  | nil =>
    intro pos x hx
    unfold blocksAux at hx
    by_cases hp : pos = 0
    · rw [if_pos hp] at hx; simp at hx
    · rw [if_neg hp] at hx; simpa using hx
  | cons v rest ih =>
    intro pos x hx
    have hv : v = false := h v (by simp)
    subst hv
    unfold blocksAux at hx
    simp only [Bool.false_eq_true, if_false, Nat.add_zero] at hx
    by_cases hp : pos = 31
    · rw [if_pos hp] at hx
      rcases List.mem_cons.mp hx with rfl | hm
      · rfl
      · exact ih (fun c hc => h c (by simp [hc])) 0 x hm
    · rw [if_neg hp] at hx
      exact ih (fun c hc => h c (by simp [hc])) (pos + 1) x hx

/-- A bitset with no set bit serializes to the empty byte sequence. -/
lemma serialize_all_false {bs : FixedBitSet}
    (h : ∀ v ∈ bs.bits, v = false) : serialize bs = [] := by
  unfold serialize
  rw [List.dropWhile_eq_nil_iff]
  intro x hx
  rcases List.mem_flatten.mp hx with ⟨s, hs, hxs⟩
  rcases List.mem_map.mp hs with ⟨blk, hblk, rfl⟩
  have hb0 : blk = 0 := blocksAux_all_zero h 0 blk hblk
  subst hb0
  rw [show beBytes 0 = [0, 0, 0, 0] from rfl] at hxs
  simp at hxs
  simp [hxs]

/-- A whitespace-only (or empty) input encodes to the empty mask. -/
lemma to_bitmaskL_ws {l : List Char} (h : ∀ c ∈ l, isWS c = true) :
    to_bitmaskL l = .ok [] := by
  have hser : serialize (FixedBitSet.with_capacity 8) = [] := by decide
  by_cases hnil : l = []
  · subst hnil
    simp [to_bitmaskL, splitTerm, splitOnC, bitmaskGo, hser]
  · have hnc : ∀ c ∈ l, c ≠ ',' := by
      intro c hc heq
      subst heq
      exact absurd (h _ hc) (by decide)
    have hterm := splitTerm_no_sep hnil hnc
    have htrim : trimL l = [] := trimL_eq_nil h
    simp [to_bitmaskL, hterm, bitmaskGo, processToken, htrim, hser]

/-! ### Claims -/

/-- C1, counterexample: for the valid range token `"32-32"` (start ≤ end),
`to_bitmask` succeeds with `[0x01]`, but that byte sequence read as a
big-endian unsigned integer is `1`, not `2^32`: bit 32 lives in the second
32-bit block, which is serialized after the first, so the big-endian
interpretation breaks once a bit index reaches 32. -/
theorem range_value_cex :
    to_bitmask "32-32" = BitmaskResult.ok [1] ∧
    beVal [1] ≠ (Finset.Icc 32 32).sum (fun k => 2 ^ k) := by
  constructor
  · decide
  · rw [Finset.Icc_self, Finset.sum_singleton]
    decide

/-- C1, amended: for every valid range token `"a-b"` with `a ≤ b` and
`b < 32` (all bits inside the first 32-bit block), `to_bitmask` succeeds and
the returned bytes, read as a big-endian unsigned integer, equal
`∑ k in [a..b], 2^k`. -/
theorem range_token_bigendian_value (sa sb : List Char) (a b : Nat)
    (ha : parseUsize sa = some a) (hb : parseUsize sb = some b)
    (hab : a ≤ b) (hlt : b < 32) :
    ∃ bytes, to_bitmaskL (sa ++ '-' :: sb) = BitmaskResult.ok bytes ∧
      beVal bytes = (Finset.Icc a b).sum (fun k => 2 ^ k) := by
  obtain ⟨h1, h2⟩ := rangeOutcome_val b hlt a hab
  refine ⟨rangeBytes a b, ?_, ?_⟩
  · rw [to_bitmaskL_range ha hb, h1]
  · rw [h2, sum_two_pow_Icc hab]

/-- Witness for C1 at the concrete token `"2-4"`. -/
theorem range_token_bigendian_value_witness :
    ∃ bytes, to_bitmaskL ([Char.ofNat 50] ++ '-' :: [Char.ofNat 52]) =
      BitmaskResult.ok bytes ∧
      beVal bytes = (Finset.Icc 2 4).sum (fun k => 2 ^ k) :=
  range_token_bigendian_value [Char.ofNat 50] [Char.ofNat 52] 2 4
    (by decide) (by decide) (by decide) (by decide)

/-- C2: the code is wrong. The single-index branch grows the container only
once, by 8 bits (`bitset.grow(bitset.len() + 8)`), so for the well-formed
token `"16"` the subsequent `bitset.set(16, true)` is out of bounds and the
Rust process panics instead of returning a result — the starting capacity
does bound correctness, contradicting the spec's growth requirement. -/
theorem single_index_grow_panics :
    to_bitmask "16" = BitmaskResult.panic := by decide

/-- C3, counterexample: for the valid single-index token `"20"`, `to_bitmask`
does not return a one-bit mask of value `2^20`; it panics (out-of-bounds
`set` after growing the 8-bit container only to 16 bits). -/
theorem single_token_value_cex :
    to_bitmask "20" = BitmaskResult.panic ∧
    ¬ ∃ bytes, to_bitmask "20" = BitmaskResult.ok bytes := by
  refine ⟨by decide, ?_⟩
  rintro ⟨bytes, hb⟩
  rw [show to_bitmask "20" = BitmaskResult.panic from by decide] at hb
  exact absurd hb (by simp)

/-- C3, amended: for every valid single-index token `"i"` with `i < 16`
(the largest index the one growth step from 8 to 16 bits makes addressable),
`to_bitmask` succeeds, the returned bytes read as a big-endian unsigned
integer equal `2^i`, and exactly one bit is set overall. -/
theorem single_token_value (s : List Char) (i : Nat)
    (h : parseUsize s = some i) (hlt : i < 16) :
    ∃ bytes, to_bitmaskL s = BitmaskResult.ok bytes ∧
      beVal bytes = 2 ^ i ∧ onesTotal bytes = 1 := by
  obtain ⟨h1, h2, h3⟩ := singleOutcome_val i hlt
  exact ⟨singleBytes i, by rw [to_bitmaskL_single h, h1], h2, h3⟩

/-- Witness for C3 at the concrete token `"9"`. -/
theorem single_token_value_witness :
    ∃ bytes, to_bitmaskL [Char.ofNat 57] = BitmaskResult.ok bytes ∧
      beVal bytes = 2 ^ 9 ∧ onesTotal bytes = 1 :=
  single_token_value [Char.ofNat 57] 9 (by decide) (by decide)

/-- C4: `to_bitmask "0,2-4,7,9-10"` succeeds and returns exactly the two
bytes `[0x06, 0x9D]`. -/
theorem encode_mixed_example :
    to_bitmask "0,2-4,7,9-10" = BitmaskResult.ok [6, 157] := by decide

/-- C5: `to_bitmask` fails with an error (`Result::Err`, the spec's
`ParseError` family) on the inverted range `"2-0"` (the `invalid cpu range`
bail) and on the incomplete ranges `"2-"` and `"-2"`, where the integer
parse of the missing side fails. -/
theorem encode_error_cases :
    to_bitmask "2-0" = BitmaskResult.rangeError ∧
    (to_bitmask "2-0").isParseError = true ∧
    to_bitmask "2-" = BitmaskResult.parseError ∧
    to_bitmask "-2" = BitmaskResult.parseError := by decide

/-- C6: whenever `systemd_version ≤ 243`, `CpuSet::apply` fails with the
unsupported-version error and returns the property map unchanged, for every
combination of the optional `cpus`/`mems` fields. -/
theorem apply_version_gate (cpu : LinuxCpu) (v : Nat) (props : PropertyMap)
    (h : v ≤ 243) :
    CpuSet_apply cpu v props = (Outcome.versionError, props) := by
  simp [CpuSet_apply, h]

/-- Witness for C6: version 235 with both fields set and an empty map. -/
theorem apply_version_gate_witness :
    CpuSet_apply ⟨some "0-3", some "0-3"⟩ 235 [] = (Outcome.versionError, []) :=
  apply_version_gate ⟨some "0-3", some "0-3"⟩ 235 [] (by omega)

/-- C7: `to_bitmask` is insensitive to overlap, whitespace and empty tokens:
`encode("0,0-2") = encode("0-2")`, the whitespace-laden example equals its
clean form, the empty input yields the empty mask, and every whitespace-only
input yields the empty mask rather than an error. -/
theorem encode_tolerance :
    to_bitmask "0,0-2" = to_bitmask "0-2" ∧
    to_bitmask "0, 2- 4,,7   ,,9-10" = to_bitmask "0,2-4,7,9-10" ∧
    to_bitmask "" = BitmaskResult.ok [] ∧
    (∀ l : List Char, (∀ c ∈ l, isWS c = true) →
      to_bitmaskL l = BitmaskResult.ok []) :=
  ⟨by decide, by decide, by decide, fun _ h => to_bitmaskL_ws h⟩

/-- Witness for C7's whitespace-only clause at the input `" "`. -/
theorem encode_tolerance_witness :
    to_bitmaskL [Char.ofNat 32] = BitmaskResult.ok [] :=
  encode_tolerance.2.2.2 [Char.ofNat 32] (by decide)

/-- C8: whenever `to_bitmask` succeeds with a non-empty byte sequence, the
first byte is non-zero; and a bitset with no set bit serializes to the
empty sequence. -/
theorem no_leading_zero_bytes :
    (∀ (l : List Char) (bytes : List Nat) (b : Nat),
      to_bitmaskL l = BitmaskResult.ok bytes → bytes.head? = some b →
      b ≠ 0) ∧
    (∀ bs : FixedBitSet, (∀ v ∈ bs.bits, v = false) → serialize bs = []) := by
  constructor
  · intro l bytes b hok hh
    unfold to_bitmaskL at hok
    obtain ⟨bs2, rfl⟩ := bitmaskGo_ok hok
    exact serialize_head_ne_zero hh
  · intro bs h
    exact serialize_all_false h

/-- Witness for C8: the encoder output for `"0"` has non-zero head `1`, and
the freshly created all-zero container serializes to `[]`. -/
theorem no_leading_zero_bytes_witness :
    (1 : Nat) ≠ 0 ∧ serialize (FixedBitSet.with_capacity 8) = [] :=
  ⟨no_leading_zero_bytes.1 [Char.ofNat 48] [1] 1 (by decide) rfl,
   no_leading_zero_bytes.2 (FixedBitSet.with_capacity 8) (by decide)⟩

/-- C9: `CpuSet::apply` is not atomic. If the CPU list encodes successfully
but the memory-node list fails to encode, the call returns an error while
the property map already holds the `AllowedCPUs` entry inserted before the
failing memory-node encoding. -/
theorem apply_partial_on_mems_error (sc sm : String) (mask : List Nat)
    (v : Nat) (props : PropertyMap) (hv : 243 < v)
    (hc : to_bitmask sc = BitmaskResult.ok mask)
    (hm : (to_bitmask sm).isParseError = true) :
    CpuSet_apply ⟨some sc, some sm⟩ v props =
      (Outcome.encodingError, insertProp ALLOWED_CPUS mask props) ∧
    List.lookup ALLOWED_CPUS
      (CpuSet_apply ⟨some sc, some sm⟩ v props).2 = some mask := by
  have hnv : ¬ v ≤ 243 := by omega
  have happ : CpuSet_apply ⟨some sc, some sm⟩ v props =
      (Outcome.encodingError, insertProp ALLOWED_CPUS mask props) := by
    unfold CpuSet_apply
    rw [if_neg hnv]
    simp only []
    rw [hc]
    cases hsm : to_bitmask sm with
    | ok bytes =>
      rw [hsm] at hm
      exact absurd hm (by simp [BitmaskResult.isParseError])
    | parseError => simp [applyMems, hsm]
    | rangeError => simp [applyMems, hsm]
    | panic =>
      rw [hsm] at hm
      exact absurd hm (by simp [BitmaskResult.isParseError])
  refine ⟨happ, ?_⟩
  rw [happ]
  simp [insertProp, List.lookup]

/-- Witness for C9: CPU list `"0-1"` (mask `[3]`), memory list `"2-"`
(parse error), version 245, empty map. -/
theorem apply_partial_on_mems_error_witness :
    CpuSet_apply ⟨some "0-1", some "2-"⟩ 245 [] =
      (Outcome.encodingError, insertProp ALLOWED_CPUS [3] []) ∧
    List.lookup ALLOWED_CPUS
      (CpuSet_apply ⟨some "0-1", some "2-"⟩ 245 []).2 = some [3] :=
  apply_partial_on_mems_error "0-1" "2-" [3] 245 [] (by omega)
    (by decide) (by decide)

/-- C10: a token with more than one `-` and numeric components is not
rejected: only the first two components are used as the range bounds, so
`to_bitmask "1-2-3"` is accepted and equals `to_bitmask "1-2"`. -/
theorem multi_dash_token_accepted :
    to_bitmask "1-2-3" = to_bitmask "1-2" ∧
    to_bitmask "1-2-3" = BitmaskResult.ok [6] := by decide

end CpusetSpec
